import Mathlib

/-!
Shallow embedding of `01 Datenextraktion/ocr_images.py`, a CLI utility that
runs an external OCR engine (tesseract via pytesseract) over a folder of
images and writes a JSON report of word records.

Modelling choices:
* Python strings are modelled as `List Char` for the character-level
  operations (`strip`, `split`, `splitlines`, substring containment,
  `int(...)` parsing); `String` (whose `data` field is a `List Char`) is used
  at the interfaces.  Only the ASCII whitespace/digit fragment relevant to
  the program is modelled (tesseract OSD output and file names are ASCII).
* Python `float` arithmetic on the values appearing here (`width / 2` on
  integer inputs) is exact, so it is modelled with `ℚ`.
* A Python exception (uncaught `ValueError`, `IndexError`/`KeyError`,
  engine failure, `SystemExit`) terminates the process with a non-zero
  exit status; fallible operations are therefore modelled with
  `Option`/`Except`, where `none` / `.error` means the process dies before
  reaching any later effect (in particular before the final output write).
* The external OCR engine, the filesystem and the argument parser are
  inputs of the model (`World`, `Config`).
-/

/-- Python `str.strip` whitespace (ASCII fragment): space, `\t`, `\n`, `\r`,
`\x0b`, `\x0c`. -/
def isPyWs (c : Char) : Bool :=
  c = ' ' || c = '\t' || c = '\n' || c = '\r' || c = '\x0b' || c = '\x0c'

/-- Python `str.strip()`: drop leading and trailing whitespace. -/
def pyStrip (l : List Char) : List Char :=
  ((l.dropWhile isPyWs).reverse.dropWhile isPyWs).reverse

/-- Python `str.strip()` at the `String` interface. -/
def pyStripStr (s : String) : String :=
  ⟨pyStrip s.data⟩

/-- Parse a nonempty all-digit character list as a natural number
(most significant digit first). -/
def digitsVal? : List Char → Option Nat
  | [] => none
  | [c] => if c.isDigit then some (c.toNat - '0'.toNat) else none
  | c :: c' :: rest =>
    if c.isDigit then
      (digitsVal? (c' :: rest)).map (fun n => (c.toNat - '0'.toNat) * 10 ^ (c' :: rest).length + n)
    else none

/-- Python `int(s)` on a string: strip whitespace, optional sign, decimal
digits; `none` models the `ValueError` raised otherwise.  (Underscore
separators and non-ASCII digits are not modelled; they do not occur in the
program's inputs.) -/
def pyInt? (s : List Char) : Option Int :=
  match pyStrip s with
  | '+' :: rest => (digitsVal? rest).map Int.ofNat
  | '-' :: rest => (digitsVal? rest).map (fun n => -(n : Int))
  | t => (digitsVal? t).map Int.ofNat

/-- Python `needle in hay` substring containment. -/
def containsSub (needle : List Char) : List Char → Bool
  | [] => needle.isEmpty
  | c :: rest => needle.isPrefixOf (c :: rest) || containsSub needle rest

/-- Python `s.split(c)`: split on every occurrence of `c`; the number of
parts is one more than the number of occurrences. -/
def splitOnChar (c : Char) : List Char → List (List Char)
  | [] => [[]]
  | x :: xs =>
    if x = c then [] :: splitOnChar c xs
    else (splitOnChar c xs).modifyHead (x :: ·)

/-- Python `s.splitlines()` (for `\n`-separated text): split on `\n`,
dropping the final empty part produced by a trailing newline. -/
def splitlinesL (l : List Char) : List (List Char) :=
  let ps := splitOnChar '\n' l
  if ps.getLast? = some [] then ps.dropLast else ps

/-- Index of the last `.` in a name (Python `name.rfind('.')`, as an
`Option`). -/
def lastDotIdx : List Char → Option Nat
  | [] => none
  | c :: rest =>
    match lastDotIdx rest with
    | some j => some (j + 1)
    | none => if c = '.' then some 0 else none

/-- Python `pathlib.PurePath.suffix`: the extension including the dot, empty when
the last dot is leading, absent, or trailing. -/
def pySuffix (name : List Char) : List Char :=
  match lastDotIdx name with
  | none => []
  | some i => if 0 < i ∧ i < name.length - 1 then name.drop i else []

/-! ## Data model -/

/-- The parallel-array token table returned by
`pytesseract.image_to_data(..., output_type=Output.DICT)`: the keys the
program reads.  Numeric cells are already integers in the DICT output (the
program's `int(...)` coercion is the identity on them); `conf` cells are
numbers, modelled exactly as rationals (`float(...)` is again the
identity). -/
structure TokenData where
  text : List String
  left : List Int
  top : List Int
  width : List Int
  height : List Int
  conf : List ℚ

/-- The `position` sub-dictionary of a word record. -/
structure Position where
  left : Int
  top : Int
  right : Int
  bottom : Int
  center_x : ℚ
  center_y : ℚ
deriving DecidableEq

/-- One word record as appended by `extract_words`. -/
structure Word where
  text : String
  rotation : Int
  position : Position
  font_size : Int
  confidence : ℚ
deriving DecidableEq

/-! ## `detect_orientation` -/

/-- The value computed from one OSD line by
`_, value = line.split(":")` followed by `int(value.strip())`:
`line.split(":")` must yield exactly two parts (one colon), otherwise the
unpacking raises `ValueError`. -/
def rotateLineVal (l : List Char) : Option Int :=
  match splitOnChar ':' l with
  | [_, v] => pyInt? (pyStrip v)
  | _ => none

/-- The loop of `detect_orientation` over the OSD lines: first line
containing `"Rotate"` decides; no such line yields `0`. -/
def detectLines : List (List Char) → Option Int
  | [] => some 0
  | l :: rest =>
    if containsSub "Rotate".data l then rotateLineVal l
    else detectLines rest

/-- The function `detect_orientation`: parse the engine's OSD text block.  `none` models
an uncaught `ValueError`. -/
def detect_orientation (osd : String) : Option Int :=
  detectLines (splitlinesL osd.data)

/-- Everything after the first `c` in the list, when `c` occurs. -/
def afterFirstChar? (c : Char) : List Char → Option (List Char)
  | [] => none
  | x :: rest => if x = c then some rest else afterFirstChar? c rest

/-- Modelled from the spec's words (for refinement against the code): on the
first line containing `"Rotate"`, split on the FIRST colon and parse the
remainder (stripped) as an integer; `0` when no line matches. -/
def detectLinesSpec : List (List Char) → Option Int
  | [] => some 0
  | l :: rest =>
    if containsSub "Rotate".data l then
      (afterFirstChar? ':' l).bind (fun v => pyInt? (pyStrip v))
    else detectLinesSpec rest

/-- The spec-worded orientation detector, to be compared with
`detect_orientation`. -/
def detect_orientation_spec (osd : String) : Option Int :=
  detectLinesSpec (splitlinesL osd.data)

/-- The per-line rotation value is absent or one of the four right-angle
values `{0, 90, 180, 270}` (the range tesseract's OSD reports). -/
def rotOkB : Option Int → Bool
  | none => true
  | some v => v = 0 || v = 90 || v = 180 || v = 270

/-! ## `extract_words` -/

/-- The word record built at index `i` of the token table (total version,
reading with defaults; used only at in-bounds indices). -/
def mkWord (data : TokenData) (rotation : Int) (i : Nat) : Word :=
  let text := pyStripStr (data.text.getD i "")
  let left := data.left.getD i 0
  let top := data.top.getD i 0
  let width := data.width.getD i 0
  let height := data.height.getD i 0
  { text := text
    rotation := rotation
    position :=
      { left := left
        top := top
        right := left + width
        bottom := top + height
        center_x := (left : ℚ) + (width : ℚ) / 2
        center_y := (top : ℚ) + (height : ℚ) / 2 }
    font_size := height
    confidence := data.conf.getD i 0 }

/-- The body of the loop at a non-blank index: the five parallel-array
reads; `none` models `IndexError` when one of them is out of bounds. -/
def buildWord (data : TokenData) (rotation : Int) (i : Nat) : Option Word := do
  let _ ← data.left[i]?
  let _ ← data.top[i]?
  let _ ← data.width[i]?
  let _ ← data.height[i]?
  let _ ← data.conf[i]?
  pure (mkWord data rotation i)

/-- A token index whose stripped text is non-blank (the `if not text:
continue` test, negated). -/
def nonBlankB (data : TokenData) (i : Nat) : Bool :=
  !(pyStrip (data.text.getD i "").data).isEmpty

/-- The loop of `extract_words` over a list of indices, appending one record
per non-blank token. -/
def extractFrom (data : TokenData) (rotation : Int) : List Nat → Option (List Word)
  | [] => some []
  | i :: rest =>
    match data.text[i]? with
    | none => none
    | some t =>
      if pyStrip t.data = [] then extractFrom data rotation rest
      else
        match buildWord data rotation i with
        | none => none
        | some w => (extractFrom data rotation rest).map (w :: ·)

/-- The function `extract_words`: iterate `i` over `range(len(data["text"]))`; `none`
models an uncaught `IndexError` from a short parallel array. -/
def extract_words (data : TokenData) (rotation : Int) : Option (List Word) :=
  extractFrom data rotation (List.range data.text.length)

/-- All five parallel arrays reach index `i`. -/
def inBounds (data : TokenData) (i : Nat) : Prop :=
  i < data.left.length ∧ i < data.top.length ∧ i < data.width.length ∧
    i < data.height.length ∧ i < data.conf.length

instance (data : TokenData) (i : Nat) : Decidable (inBounds data i) := by
  unfold inBounds; infer_instance

/-- The token indices that survive the blank filter, in engine order. -/
def nonBlankIndices (data : TokenData) : List Nat :=
  (List.range data.text.length).filter (nonBlankB data)

/-! ## `iter_images` -/

/-- The supported image extensions (lower-case, with dot). -/
def SUPPORTED_EXTENSIONS : List (List Char) :=
  [".png".data, ".jpg".data, ".jpeg".data, ".tif".data, ".tiff".data, ".bmp".data]

/-- One directory entry as yielded by `Path.iterdir`: its name and whether
it is a subdirectory.  (`iterdir` yields both files and directories.) -/
structure Entry where
  name : String
  isDir : Bool
deriving DecidableEq

/-- The filter of `iter_images`: `path.suffix.lower() in
SUPPORTED_EXTENSIONS`.  Note it looks only at the name, never at the entry
kind. -/
def hasSupportedExt (name : String) : Bool :=
  SUPPORTED_EXTENSIONS.contains ((pySuffix name.data).map Char.toLower)

/-- The function `iter_images`: filter the directory entries by extension and sort by
path.  All entries share the directory prefix, so sorting the full paths is
sorting the names; Python's `sorted` on `Path` compares the path strings
(code-point order on POSIX). -/
def iter_images (entries : List Entry) : List String :=
  List.insertionSort (· ≤ ·) ((entries.map Entry.name).filter hasSupportedExt)

/-! ## `main` -/

/-- The parsed command-line configuration. -/
structure Config where
  imgDir : String
  output : String

/-- The environment `main` runs in: engine availability, the image
directory, and the engine's per-file answers.  `none` from `osdOf` models
any failure while opening the image or running OSD on it (uncaught, fatal);
likewise `tokensOf` for `image_to_data`. -/
structure World where
  engineOk : Bool
  dirExists : Bool
  entries : List Entry
  osdOf : String → Option String
  tokensOf : String → Option TokenData

/-- One image entry of the report. -/
structure ImageEntry where
  file : String
  rotation : Int
  words : List Word

/-- The report: a single top-level key `images`. -/
structure Report where
  images : List ImageEntry

/-- The per-image loop of `main`: open + OSD, `detect_orientation`,
`extract_words`, append `{file, rotation, words}`.  Any `none` aborts the
whole run (`.error`), as the Python exceptions are uncaught. -/
def processImages (w : World) : List String → Except String (List ImageEntry)
  | [] => .ok []
  | p :: rest =>
    match w.osdOf p with
    | none => .error ("engine failure on " ++ p)
    | some osd =>
      match detect_orientation osd with
      | none => .error ("invalid OSD output for " ++ p)
      | some rot =>
        match w.tokensOf p with
        | none => .error ("engine failure on " ++ p)
        | some data =>
          match extract_words data rot with
          | none => .error ("malformed token table for " ++ p)
          | some ws =>
            (processImages w rest).map ({ file := p, rotation := rot, words := ws } :: ·)

/-- The body of `main` after argument parsing: `configure_tesseract` (fatal
`SystemExit` when the engine is unavailable), the `img_dir.is_dir()` check
(fatal `SystemExit` when it fails), the per-image loop, then the output
write and the success message.  `.error` is a non-zero process exit
happening before the output file is touched — the write is the single
side-effect on the output path and only the `.ok` branch reaches it; the
returned pair is (report written, message printed). -/
def runMain (cfg : Config) (w : World) : Except String (Report × String) :=
  if w.engineOk = false then
    .error "Tesseract executable not found."
  else if w.dirExists = false then
    .error ("Image directory not found: " ++ cfg.imgDir)
  else
    (processImages w (iter_images w.entries)).map
      (fun es => (⟨es⟩, "Wrote OCR results to " ++ cfg.output))

/-! ## Helper lemmas: `extract_words` -/

theorem buildWord_eq (data : TokenData) (rot : Int) (i : Nat) (h : inBounds data i) :
    buildWord data rot i = some (mkWord data rot i) := by
  obtain ⟨h1, h2, h3, h4, h5⟩ := h
  unfold buildWord
  rw [List.getElem?_eq_getElem h1, List.getElem?_eq_getElem h2, List.getElem?_eq_getElem h3,
    List.getElem?_eq_getElem h4, List.getElem?_eq_getElem h5]
  rfl

theorem inBounds_of_buildWord (data : TokenData) (rot : Int) (i : Nat) (w : Word)
    (h : buildWord data rot i = some w) : inBounds data i := by
  simp only [buildWord, bind, Option.bind_eq_some] at h
  obtain ⟨a1, ha1, a2, ha2, a3, ha3, a4, ha4, a5, ha5, -⟩ := h
  exact ⟨(List.getElem?_eq_some.mp ha1).1, (List.getElem?_eq_some.mp ha2).1,
    (List.getElem?_eq_some.mp ha3).1, (List.getElem?_eq_some.mp ha4).1,
    (List.getElem?_eq_some.mp ha5).1⟩

theorem mem_nonBlankIndices (data : TokenData) (i : Nat) :
    i ∈ nonBlankIndices data ↔ i < data.text.length ∧ nonBlankB data i = true := by
  simp [nonBlankIndices, List.mem_filter, List.mem_range]

theorem extractFrom_eq (data : TokenData) (rot : Int) (idxs : List Nat) :
    (∀ i ∈ idxs, i < data.text.length) →
    (∀ i ∈ idxs, nonBlankB data i = true → inBounds data i) →
    extractFrom data rot idxs = some ((idxs.filter (nonBlankB data)).map (mkWord data rot)) := by
  induction idxs with
  | nil => intro _ _; rfl
  | cons i rest ih =>
    intro hlen hb
    have hi : i < data.text.length := hlen i (List.mem_cons_self _ _)
    have ht : data.text[i]? = some data.text[i] := List.getElem?_eq_getElem hi
    have hgetD : data.text.getD i "" = data.text[i] := by
      rw [List.getD_eq_getElem?_getD, ht]; rfl
    have ihr := ih (fun j hj => hlen j (List.mem_cons_of_mem _ hj))
      (fun j hj => hb j (List.mem_cons_of_mem _ hj))
    by_cases hblank : pyStrip (data.text[i]).data = []
    · have hnb : nonBlankB data i = false := by
        unfold nonBlankB; rw [hgetD, hblank]; rfl
      simp only [extractFrom, ht, hblank, if_pos, List.filter_cons, hnb]
      simpa using ihr
    · have hnb : nonBlankB data i = true := by
        unfold nonBlankB; rw [hgetD]; simp [hblank]
      have hbw := buildWord_eq data rot i (hb i (List.mem_cons_self _ _) hnb)
      simp only [extractFrom, ht, hblank, if_neg, hbw, List.filter_cons, hnb, ihr]
      simp

theorem extractFrom_ok (data : TokenData) (rot : Int) (idxs : List Nat) :
    ∀ ws : List Word, extractFrom data rot idxs = some ws →
      (∀ i ∈ idxs, i < data.text.length) ∧
        (∀ i ∈ idxs, nonBlankB data i = true → inBounds data i) := by
  induction idxs with
  | nil => intro _ _; exact ⟨by simp, by simp⟩
  | cons i rest ih =>
    intro ws h
    cases ht : data.text[i]? with
    | none =>
      simp only [extractFrom, ht] at h
      exact Option.noConfusion h
    | some t =>
      have hi : i < data.text.length := (List.getElem?_eq_some.mp ht).1
      have hgetD : data.text.getD i "" = t := by
        rw [List.getD_eq_getElem?_getD, ht]; rfl
      simp only [extractFrom, ht] at h
      by_cases hblank : pyStrip t.data = []
      · rw [if_pos hblank] at h
        obtain ⟨hlen, hb⟩ := ih ws h
        constructor
        · intro j hj
          rcases List.mem_cons.mp hj with rfl | hj'
          · exact hi
          · exact hlen j hj'
        · intro j hj hnb
          rcases List.mem_cons.mp hj with rfl | hj'
          · refine absurd hnb ?_
            unfold nonBlankB; rw [hgetD, hblank]; simp
          · exact hb j hj' hnb
      · rw [if_neg hblank] at h
        cases hbw : buildWord data rot i with
        | none => rw [hbw] at h; simp at h
        | some w =>
          rw [hbw] at h
          obtain ⟨ws', hws', -⟩ := Option.map_eq_some'.mp h
          obtain ⟨hlen, hb⟩ := ih ws' hws'
          constructor
          · intro j hj
            rcases List.mem_cons.mp hj with rfl | hj'
            · exact hi
            · exact hlen j hj'
          · intro j hj hnb
            rcases List.mem_cons.mp hj with rfl | hj'
            · exact inBounds_of_buildWord data rot j w hbw
            · exact hb j hj' hnb

theorem extract_words_total (data : TokenData) (rot : Int)
    (hb : ∀ i, i < data.text.length → nonBlankB data i = true → inBounds data i) :
    extract_words data rot = some ((nonBlankIndices data).map (mkWord data rot)) :=
  extractFrom_eq data rot _ (fun _ hi => List.mem_range.mp hi)
    (fun i hi => hb i (List.mem_range.mp hi))

theorem extract_words_some_eq (data : TokenData) (rot : Int) (ws : List Word)
    (h : extract_words data rot = some ws) :
    ws = (nonBlankIndices data).map (mkWord data rot) := by
  obtain ⟨-, hb⟩ := extractFrom_ok data rot _ ws h
  have h2 := extract_words_total data rot (fun i hi => hb i (List.mem_range.mpr hi))
  exact Option.some.inj (h.symm.trans h2)

/-! ## Claims on `extract_words` -/

/-- C1: whenever `extract_words` succeeds, every token whose stripped text is
non-empty yields a word record whose `text` is the stripped token text and
whose position satisfies exactly `right = left + width`,
`bottom = top + height`, `center_x = left + width/2`,
`center_y = top + height/2`, for the values of the engine's token table at
that index. -/
theorem extract_words_geometry (data : TokenData) (rot : Int) (ws : List Word)
    (h : extract_words data rot = some ws) :
    ∀ i, i < data.text.length → nonBlankB data i = true →
      ∃ w ∈ ws,
        w.text = pyStripStr (data.text.getD i "") ∧
        w.position.left = data.left.getD i 0 ∧
        w.position.top = data.top.getD i 0 ∧
        w.position.right = data.left.getD i 0 + data.width.getD i 0 ∧
        w.position.bottom = data.top.getD i 0 + data.height.getD i 0 ∧
        w.position.center_x = (data.left.getD i 0 : ℚ) + (data.width.getD i 0 : ℚ) / 2 ∧
        w.position.center_y = (data.top.getD i 0 : ℚ) + (data.height.getD i 0 : ℚ) / 2 := by
  intro i hi hnb
  have hws := extract_words_some_eq data rot ws h
  subst hws
  exact ⟨mkWord data rot i,
    List.mem_map_of_mem _ ((mem_nonBlankIndices data i).mpr ⟨hi, hnb⟩),
    rfl, rfl, rfl, rfl, rfl, rfl, rfl⟩

/-- Witness for C1: the spec's end-to-end example token
`("Hello", 10, 10, 50, 20, 95.0)`. -/
theorem extract_words_geometry_witness :
    ∃ ws, extract_words ⟨["Hello"], [10], [10], [50], [20], [95]⟩ 0 = some ws ∧
      ∃ w ∈ ws, w.position.right = 60 ∧ w.position.bottom = 30 ∧
        w.position.center_x = 35 ∧ w.position.center_y = 20 := by
  have hx : extract_words ⟨["Hello"], [10], [10], [50], [20], [95]⟩ 0 =
      some [mkWord ⟨["Hello"], [10], [10], [50], [20], [95]⟩ 0 0] := rfl
  obtain ⟨w, hw, -, -, -, h4, h5, h6, h7⟩ :=
    extract_words_geometry _ 0 _ hx 0 (by decide) (by decide)
  refine ⟨_, hx, w, hw, ?_, ?_, ?_, ?_⟩
  · rw [h4]; rfl
  · rw [h5]; rfl
  · rw [h6]; show ((10 : Int) : ℚ) + ((50 : Int) : ℚ) / 2 = 35; norm_num
  · rw [h7]; show ((10 : Int) : ℚ) + ((20 : Int) : ℚ) / 2 = 20; norm_num

/-- C2: whenever `extract_words` succeeds, no produced word record has empty
text, the number of word records is at most the token count, and it equals
the token count exactly when no token's stripped text is empty. -/
theorem extract_words_no_blanks (data : TokenData) (rot : Int) (ws : List Word)
    (h : extract_words data rot = some ws) :
    (∀ w ∈ ws, w.text ≠ "") ∧ ws.length ≤ data.text.length ∧
      (ws.length = data.text.length ↔ ∀ i, i < data.text.length → nonBlankB data i = true) := by
  have hws := extract_words_some_eq data rot ws h
  subst hws
  refine ⟨?_, ?_, ?_⟩
  · intro w hw
    obtain ⟨i, hi, rfl⟩ := List.mem_map.mp hw
    have hnb : nonBlankB data i = true := ((mem_nonBlankIndices data i).mp hi).2
    intro hcontra
    have hd : pyStrip (data.text.getD i "").data = [] := by
      have := congrArg String.data hcontra
      simpa [mkWord, pyStripStr] using this
    unfold nonBlankB at hnb
    rw [hd] at hnb
    simp at hnb
  · calc ((nonBlankIndices data).map (mkWord data rot)).length
        = (nonBlankIndices data).length := List.length_map _ _
      _ ≤ (List.range data.text.length).length := List.length_filter_le _ _
      _ = data.text.length := List.length_range _
  · rw [List.length_map]
    unfold nonBlankIndices
    have hiff := List.filter_length_eq_length (p := nonBlankB data)
      (l := List.range data.text.length)
    rw [List.length_range] at hiff
    rw [hiff]
    constructor
    · intro hall i hi
      exact hall i (List.mem_range.mpr hi)
    · intro hall i hi
      exact hall i (List.mem_range.mp hi)

/-- Witness for C2: a table with one non-blank and one whitespace-only
token produces exactly one record, none blank, and fewer records than
tokens. -/
theorem extract_words_no_blanks_witness :
    ∃ ws, extract_words ⟨["Hello", " "], [10, 5], [10, 5], [50, 1], [20, 1], [95, 0]⟩ 0
        = some ws ∧
      (∀ w ∈ ws, w.text ≠ "") ∧ ws.length ≤ 2 ∧ ws.length ≠ 2 := by
  have hx : extract_words ⟨["Hello", " "], [10, 5], [10, 5], [50, 1], [20, 1], [95, 0]⟩ 0
      = some [mkWord ⟨["Hello", " "], [10, 5], [10, 5], [50, 1], [20, 1], [95, 0]⟩ 0 0] := rfl
  have h := extract_words_no_blanks _ 0 _ hx
  refine ⟨_, hx, h.1, h.2.1, ?_⟩
  intro hlen
  have hblank := h.2.2.mp hlen 1 (by decide)
  exact absurd hblank (by decide)

/-- C8: whenever `extract_words` succeeds, the record built for a non-blank
token carries exactly the engine-reported confidence at that index —
no range restriction is applied anywhere. -/
theorem extract_words_confidence (data : TokenData) (rot : Int) (ws : List Word)
    (h : extract_words data rot = some ws) :
    ∀ i, i < data.text.length → nonBlankB data i = true →
      ∃ w ∈ ws, w.confidence = data.conf.getD i 0 := by
  intro i hi hnb
  have hws := extract_words_some_eq data rot ws h
  subst hws
  exact ⟨mkWord data rot i,
    List.mem_map_of_mem _ ((mem_nonBlankIndices data i).mpr ⟨hi, hnb⟩), rfl⟩

/-- Witness for C8 at a negative engine confidence (`-1`), which appears
unchanged in the output. -/
theorem extract_words_confidence_witness :
    ∃ ws, extract_words ⟨["N"], [0], [0], [1], [1], [-1]⟩ 0 = some ws ∧
      ∃ w ∈ ws, w.confidence = -1 := by
  have hx : extract_words ⟨["N"], [0], [0], [1], [1], [-1]⟩ 0 =
      some [mkWord ⟨["N"], [0], [0], [1], [1], [-1]⟩ 0 0] := rfl
  obtain ⟨w, hw, hc⟩ := extract_words_confidence _ 0 _ hx 0 (by decide) (by decide)
  exact ⟨_, hx, w, hw, by rw [hc]; rfl⟩

/-- C9: under the precondition that each of the five parallel arrays is at
least as long as the `text` array, every access `extract_words` makes is in
bounds and it succeeds; without the precondition it can fail with an
out-of-bounds access (`none`), as the concrete second conjunct shows. -/
theorem extract_words_inbounds_safety :
    (∀ (data : TokenData) (rot : Int),
        data.text.length ≤ data.left.length → data.text.length ≤ data.top.length →
          data.text.length ≤ data.width.length → data.text.length ≤ data.height.length →
            data.text.length ≤ data.conf.length → (extract_words data rot).isSome = true) ∧
      extract_words ⟨["a"], [], [], [], [], []⟩ 0 = none := by
  constructor
  · intro data rot h1 h2 h3 h4 h5
    rw [extract_words_total data rot ?_]
    · rfl
    · intro i hi _
      exact ⟨lt_of_lt_of_le hi h1, lt_of_lt_of_le hi h2, lt_of_lt_of_le hi h3,
        lt_of_lt_of_le hi h4, lt_of_lt_of_le hi h5⟩
  · rfl

/-- Witness for C9: a table with all five arrays long enough succeeds. -/
theorem extract_words_inbounds_safety_witness :
    (extract_words ⟨["x"], [1], [2], [3], [4], [5]⟩ 7).isSome = true :=
  extract_words_inbounds_safety.1 ⟨["x"], [1], [2], [3], [4], [5]⟩ 7
    (by decide) (by decide) (by decide) (by decide) (by decide)

/-! ## Helper lemmas: `detect_orientation` -/

theorem splitOnChar_ne_nil (c : Char) (l : List Char) : splitOnChar c l ≠ [] := by
  induction l with
  | nil => simp [splitOnChar]
  | cons x xs ih =>
    by_cases hx : x = c
    · simp [splitOnChar, hx]
    · simp only [splitOnChar, if_neg hx]
      cases hs : splitOnChar c xs with
      | nil => exact absurd hs ih
      | cons a t => simp [List.modifyHead]

theorem splitOnChar_singleton (c : Char) (l : List Char) :
    ∀ v, splitOnChar c l = [v] → v = l := by
  induction l with
  | nil =>
    intro v hv
    simp only [splitOnChar] at hv
    exact (List.cons.inj hv).1.symm
  | cons x xs ih =>
    intro v hv
    by_cases hx : x = c
    · simp only [splitOnChar, if_pos hx] at hv
      exact absurd (List.cons.inj hv).2 (splitOnChar_ne_nil c xs)
    · simp only [splitOnChar, if_neg hx] at hv
      cases hs : splitOnChar c xs with
      | nil => exact absurd hs (splitOnChar_ne_nil c xs)
      | cons a t =>
        rw [hs] at hv
        cases t with
        | nil =>
          have ha : a = xs := ih a hs
          simp only [List.modifyHead] at hv
          rw [← (List.cons.inj hv).1, ha]
        | cons b t' => simp [List.modifyHead] at hv

theorem splitOnChar_of_not_mem (c : Char) (l : List Char) (h : c ∉ l) :
    splitOnChar c l = [l] := by
  induction l with
  | nil => rfl
  | cons x xs ih =>
    have hx : ¬x = c := fun e => h (by rw [e]; exact List.mem_cons_self _ _)
    simp only [splitOnChar, if_neg hx]
    rw [ih (fun hm => h (List.mem_cons_of_mem _ hm))]
    rfl

theorem mem_of_splitOnChar_two (c : Char) (l : List Char)
    (h : 2 ≤ (splitOnChar c l).length) : c ∈ l := by
  by_cases hm : c ∈ l
  · exact hm
  · rw [splitOnChar_of_not_mem c l hm] at h
    simp at h

theorem mem_dropWhile_of_mem {p : Char → Bool} {x : Char} (hp : p x = false) :
    ∀ l : List Char, x ∈ l → x ∈ l.dropWhile p := by
  intro l
  induction l with
  | nil => simp
  | cons a as ih =>
    intro hx
    rw [List.dropWhile_cons]
    by_cases ha : p a = true
    · rw [if_pos ha]
      rcases List.mem_cons.mp hx with rfl | hx'
      · rw [ha] at hp; exact absurd hp (by simp)
      · exact ih hx'
    · rw [if_neg ha]
      exact hx

theorem mem_pyStrip {x : Char} (hp : isPyWs x = false) {l : List Char} (h : x ∈ l) :
    x ∈ pyStrip l := by
  unfold pyStrip
  rw [List.mem_reverse]
  exact mem_dropWhile_of_mem hp _ (List.mem_reverse.mpr (mem_dropWhile_of_mem hp _ h))

theorem digitsVal?_eq_none {x : Char} (hx : x.isDigit = false) :
    ∀ l : List Char, x ∈ l → digitsVal? l = none := by
  intro l
  induction l with
  | nil => simp
  | cons a as ih =>
    intro hm
    cases as with
    | nil =>
      rcases List.mem_cons.mp hm with rfl | hm'
      · simp [digitsVal?, hx]
      · simp at hm'
    | cons b bs =>
      rcases List.mem_cons.mp hm with rfl | hm'
      · simp [digitsVal?, hx]
      · simp only [digitsVal?]
        rw [ih hm']
        split <;> rfl

theorem pyInt?_eq_none_of_colon {l : List Char} (h : ':' ∈ l) : pyInt? l = none := by
  have hcs : ':' ∈ pyStrip l := mem_pyStrip (by decide) h
  unfold pyInt?
  split
  · rename_i rest heq
    rw [heq] at hcs
    have : ':' ∈ rest := by
      rcases List.mem_cons.mp hcs with h' | h'
      · exact absurd h' (by decide)
      · exact h'
    rw [digitsVal?_eq_none (by decide) rest this]
    rfl
  · rename_i rest heq
    rw [heq] at hcs
    have : ':' ∈ rest := by
      rcases List.mem_cons.mp hcs with h' | h'
      · exact absurd h' (by decide)
      · exact h'
    rw [digitsVal?_eq_none (by decide) rest this]
    rfl
  · rw [digitsVal?_eq_none (x := ':') (by decide) (pyStrip l) hcs]
    rfl

theorem rotateLineVal_eq_spec (l : List Char) :
    rotateLineVal l = (afterFirstChar? ':' l).bind (fun v => pyInt? (pyStrip v)) := by
  induction l with
  | nil => rfl
  | cons x xs ih =>
    by_cases hx : x = ':'
    · subst hx
      have hsplit : splitOnChar ':' (':' :: xs) = [] :: splitOnChar ':' xs := by
        simp [splitOnChar]
      unfold rotateLineVal
      rw [hsplit]
      cases hs : splitOnChar ':' xs with
      | nil => exact absurd hs (splitOnChar_ne_nil ':' xs)
      | cons a t =>
        cases t with
        | nil =>
          have ha : a = xs := splitOnChar_singleton ':' xs a hs
          subst ha
          simp [afterFirstChar?]
        | cons b t' =>
          have hmem : ':' ∈ xs := by
            apply mem_of_splitOnChar_two ':' xs
            rw [hs]; simp
          have hnone := pyInt?_eq_none_of_colon (mem_pyStrip (by decide) hmem)
          simp [afterFirstChar?, hnone]
    · have hsplit : splitOnChar ':' (x :: xs) = (splitOnChar ':' xs).modifyHead (x :: ·) := by
        simp [splitOnChar, hx]
      have hstep : rotateLineVal (x :: xs) = rotateLineVal xs := by
        unfold rotateLineVal
        rw [hsplit]
        cases hs : splitOnChar ':' xs with
        | nil => exact absurd hs (splitOnChar_ne_nil ':' xs)
        | cons a t =>
          cases t with
          | nil => rfl
          | cons b t' =>
            cases t' with
            | nil => rfl
            | cons d t'' => rfl
      have hafter : afterFirstChar? ':' (x :: xs) = afterFirstChar? ':' xs := by
        simp [afterFirstChar?, hx]
      rw [hstep, hafter, ih]

theorem detectLines_eq_spec (lines : List (List Char)) :
    detectLines lines = detectLinesSpec lines := by
  induction lines with
  | nil => rfl
  | cons l rest ih =>
    unfold detectLines detectLinesSpec
    by_cases hc : containsSub "Rotate".data l = true
    · simp only [hc, if_true]
      exact rotateLineVal_eq_spec l
    · simp only [Bool.not_eq_true] at hc
      simp only [hc, Bool.false_eq_true, if_false]
      exact ih

theorem detectLines_no_rotate (lines : List (List Char))
    (h : ∀ l ∈ lines, containsSub "Rotate".data l = false) :
    detectLines lines = some 0 := by
  induction lines with
  | nil => rfl
  | cons l rest ih =>
    unfold detectLines
    rw [h l (List.mem_cons_self _ _)]
    simp only [Bool.false_eq_true, if_false]
    exact ih (fun l' hl' => h l' (List.mem_cons_of_mem _ hl'))

theorem detectLines_first_match (pre : List (List Char)) (l : List Char)
    (rest rest' : List (List Char)) (hc : containsSub "Rotate".data l = true) :
    detectLines (pre ++ l :: rest) = detectLines (pre ++ l :: rest') := by
  induction pre with
  | nil => simp [detectLines, hc]
  | cons p pre' ih =>
    simp only [List.cons_append]
    unfold detectLines
    by_cases hp : containsSub "Rotate".data p = true
    · simp [hp]
    · simp only [Bool.not_eq_true] at hp
      simp only [hp, Bool.false_eq_true, if_false]
      exact ih

/-! ## Claims on `detect_orientation` -/

/-- C3: `detect_orientation` behaves exactly as the spec words it: it agrees
everywhere with the spec-worded detector (first `"Rotate"` line, split on
the first colon, remainder stripped and parsed as an integer — agreeing
also on every error case); with no `"Rotate"` line it returns `0`; and the
lines after the first matching line are never consulted (changing them
never changes the result). -/
theorem detect_orientation_first_rotate :
    (∀ osd : String, detect_orientation osd = detect_orientation_spec osd) ∧
      (∀ osd : String,
        (∀ l ∈ splitlinesL osd.data, containsSub "Rotate".data l = false) →
          detect_orientation osd = some 0) ∧
      (∀ (pre : List (List Char)) (l : List Char) (rest rest' : List (List Char)),
        containsSub "Rotate".data l = true →
          detectLines (pre ++ l :: rest) = detectLines (pre ++ l :: rest')) := by
  refine ⟨?_, ?_, detectLines_first_match⟩
  · intro osd
    exact detectLines_eq_spec _
  · intro osd h
    exact detectLines_no_rotate _ h

/-- Witness for C3: a concrete OSD block with a `Rotate` line, one without,
and invariance under changing the lines after the first match. -/
theorem detect_orientation_first_rotate_witness :
    detect_orientation "Orientation in degrees: 90\nRotate: 270\nScript: Latin" =
        detect_orientation_spec "Orientation in degrees: 90\nRotate: 270\nScript: Latin" ∧
      detect_orientation "no marker here\nat all" = some 0 ∧
      detectLines (["abc".data] ++ "Rotate: 90".data :: ["tail one".data]) =
        detectLines (["abc".data] ++ "Rotate: 90".data :: ["tail two".data]) :=
  ⟨detect_orientation_first_rotate.1 _,
    detect_orientation_first_rotate.2.1 _ (by decide),
    detect_orientation_first_rotate.2.2 ["abc".data] "Rotate: 90".data
      ["tail one".data] ["tail two".data] (by decide)⟩

/-- C5 counterexample: the code performs no validation of the parsed
rotation, so an engine block `"Rotate: 45"` stores orientation `45`, which
is not in `{0, 90, 180, 270}` — the claim as stated is false for the code
over arbitrary engine output. -/
theorem detect_orientation_range_counterexample :
    detect_orientation "Rotate: 45" = some 45 ∧
      ¬((45 : Int) = 0 ∨ (45 : Int) = 90 ∨ (45 : Int) = 180 ∨ (45 : Int) = 270) := by
  decide

/-- C5 amended: the stored orientation is in `{0, 90, 180, 270}` provided
every `"Rotate"` line of the engine's OSD block parses to one of those
values (which tesseract guarantees); the code itself never validates. -/
theorem detect_orientation_range (osd : String)
    (h : ∀ l ∈ splitlinesL osd.data, containsSub "Rotate".data l = true →
      rotOkB (rotateLineVal l) = true) :
    ∀ v, detect_orientation osd = some v →
      v = 0 ∨ v = 90 ∨ v = 180 ∨ v = 270 := by
  unfold detect_orientation
  generalize hls : splitlinesL osd.data = lines
  rw [hls] at h
  clear hls
  induction lines with
  | nil =>
    intro v hv
    simp only [detectLines] at hv
    left
    exact (Option.some.inj hv).symm
  | cons l rest ih =>
    intro v hv
    unfold detectLines at hv
    by_cases hc : containsSub "Rotate".data l = true
    · simp only [hc, if_true] at hv
      have hok := h l (List.mem_cons_self _ _) hc
      rw [hv] at hok
      have := by simpa [rotOkB] using hok
      tauto
    · simp only [Bool.not_eq_true] at hc
      rw [hc] at hv
      simp only [Bool.false_eq_true, if_false] at hv
      exact ih (fun l' hl' => h l' (List.mem_cons_of_mem _ hl')) v hv

/-- Witness for C5 (amended) at a block whose only `Rotate` line reports
`180`. -/
theorem detect_orientation_range_witness :
    (180 : Int) = 0 ∨ (180 : Int) = 90 ∨ (180 : Int) = 180 ∨ (180 : Int) = 270 :=
  detect_orientation_range "Page number: 0\nRotate: 180\nStuff" (by decide) 180 (by decide)

/-! ## Claims on `iter_images` -/

/-- C4 counterexample: a SUBDIRECTORY named `sub.png` is returned by
`iter_images`, because the filter tests only `path.suffix` and never the
entry kind — so "every subdirectory is excluded" is false as stated. -/
theorem iter_images_subdir_counterexample :
    (Entry.mk "sub.png" true).isDir = true ∧
      "sub.png" ∈ iter_images [Entry.mk "sub.png" true, Entry.mk "a.txt" false] := by
  decide

/-- C4 amended: enumeration returns exactly the directory entries — of
either kind, files or subdirectories — whose extension compared
case-insensitively is one of `.png .jpg .jpeg .tif .tiff .bmp`, sorted
ascending; non-matching entries are excluded, and nothing else is
consulted (no recursion). -/
theorem iter_images_exact (entries : List Entry) :
    (iter_images entries).Sorted (· ≤ ·) ∧
      (iter_images entries).Perm ((entries.map Entry.name).filter hasSupportedExt) ∧
      ∀ n : String, n ∈ iter_images entries ↔
        ((∃ e ∈ entries, e.name = n) ∧ hasSupportedExt n = true) := by
  refine ⟨List.sorted_insertionSort _ _, List.perm_insertionSort _ _, ?_⟩
  intro n
  unfold iter_images
  rw [(List.perm_insertionSort (· ≤ ·) _).mem_iff, List.mem_filter, List.mem_map]

/-! ## Claims on `main` -/

/-- C6: whenever the configured image directory does not exist (or is not a
directory), the run terminates with an error — a non-zero `SystemExit`
before the output write is ever reached, so the output file is not written
or modified. -/
theorem missing_dir_exits (cfg : Config) (w : World) (h : w.dirExists = false) :
    ∃ msg, runMain cfg w = .error msg := by
  unfold runMain
  by_cases he : w.engineOk = false
  · exact ⟨_, by rw [if_pos he]⟩
  · exact ⟨_, by rw [if_neg he, if_pos h]⟩

/-- Witness for C6 at a concrete configuration with a missing directory. -/
theorem missing_dir_exits_witness :
    ∃ msg, runMain ⟨"img", "ocr_output.json"⟩
        ⟨true, false, [], fun _ => none, fun _ => none⟩ = .error msg :=
  missing_dir_exits ⟨"img", "ocr_output.json"⟩
    ⟨true, false, [], fun _ => none, fun _ => none⟩ rfl

theorem processImages_mem (w : World) :
    ∀ (ps : List String) (es : List ImageEntry), processImages w ps = .ok es →
      ∀ e ∈ es, ∃ rot data, w.tokensOf e.file = some data ∧
        extract_words data rot = some e.words := by
  intro ps
  induction ps with
  | nil =>
    intro es h e he
    simp only [processImages] at h
    cases h
    simp at he
  | cons p rest ih =>
    intro es h e he
    unfold processImages at h
    cases ho : w.osdOf p with
    | none => simp only [ho] at h; exact Except.noConfusion h
    | some osd =>
      simp only [ho] at h
      cases hd : detect_orientation osd with
      | none => simp only [hd] at h; exact Except.noConfusion h
      | some rot =>
        simp only [hd] at h
        cases htok : w.tokensOf p with
        | none => simp only [htok] at h; exact Except.noConfusion h
        | some data =>
          simp only [htok] at h
          cases hew : extract_words data rot with
          | none => simp only [hew] at h; exact Except.noConfusion h
          | some ws =>
            simp only [hew] at h
            cases hrest : processImages w rest with
            | error m => rw [hrest] at h; exact Except.noConfusion h
            | ok es' =>
              rw [hrest] at h
              simp only [Except.map] at h
              cases h
              rcases List.mem_cons.mp he with rfl | he'
              · exact ⟨rot, data, htok, hew⟩
              · exact ih es' hrest e he'

theorem runMain_ok_inv (cfg : Config) (w : World) (rep : Report) (msg : String)
    (h : runMain cfg w = .ok (rep, msg)) :
    processImages w (iter_images w.entries) = .ok rep.images := by
  unfold runMain at h
  by_cases he : w.engineOk = false
  · rw [if_pos he] at h; exact Except.noConfusion h
  · rw [if_neg he] at h
    by_cases hd : w.dirExists = false
    · rw [if_pos hd] at h; exact Except.noConfusion h
    · rw [if_neg hd] at h
      cases hp : processImages w (iter_images w.entries) with
      | error m => rw [hp] at h; exact Except.noConfusion h
      | ok es =>
        rw [hp] at h
        simp only [Except.map] at h
        have h1 : (Report.mk es) = rep := congrArg Prod.fst (Except.ok.inj h)
        rw [← h1]

/-- C7: in a successful run, every image entry of the report whose token
table yields zero non-blank tokens has `words = []` — the empty sequence is
present (the `ImageEntry` structure always carries `file`, `rotation` and
`words`). -/
theorem report_blank_images_empty_words (cfg : Config) (w : World) (rep : Report)
    (msg : String) (h : runMain cfg w = .ok (rep, msg)) :
    ∀ e ∈ rep.images, ∀ data, w.tokensOf e.file = some data →
      (∀ i, i < data.text.length → nonBlankB data i = false) →
      e.words = [] := by
  intro e he data hdata hblank
  obtain ⟨rot, data', hdata', hew⟩ :=
    processImages_mem w _ _ (runMain_ok_inv cfg w rep msg h) e he
  have hde : data' = data := Option.some.inj (hdata'.symm.trans hdata)
  subst hde
  have hws := extract_words_some_eq data' rot e.words hew
  rw [hws]
  have hni : nonBlankIndices data' = [] := by
    unfold nonBlankIndices
    rw [List.filter_eq_nil_iff]
    intro a ha
    rw [hblank a (List.mem_range.mp ha)]
    simp
  rw [hni]
  rfl

/-- Witness for C7: a run over one image with an empty token table yields a
report whose single entry has an empty `words` list. -/
theorem report_blank_images_empty_words_witness :
    ∃ rep msg,
      runMain ⟨"img", "ocr_output.json"⟩
          ⟨true, true, [Entry.mk "a.png" false],
            fun _ => some "Rotate: 0\n", fun _ => some ⟨[], [], [], [], [], []⟩⟩
        = .ok (rep, msg) ∧ ∀ e ∈ rep.images, e.words = [] := by
  have hx : runMain ⟨"img", "ocr_output.json"⟩
      ⟨true, true, [Entry.mk "a.png" false],
        fun _ => some "Rotate: 0\n", fun _ => some ⟨[], [], [], [], [], []⟩⟩
      = .ok (⟨[⟨"a.png", 0, []⟩]⟩, "Wrote OCR results to ocr_output.json") := rfl
  refine ⟨_, _, hx, ?_⟩
  intro e he
  exact report_blank_images_empty_words _ _ _ _ hx e he ⟨[], [], [], [], [], []⟩ rfl
    (fun i hi => absurd hi (Nat.not_lt_zero i))

/-- C10: with the engine available and the image directory present but
holding no entry with a supported extension, the run succeeds, the report
written is `{"images": []}`, and the printed message names the output
path. -/
theorem empty_dir_success (cfg : Config) (w : World)
    (heng : w.engineOk = true) (hdir : w.dirExists = true)
    (hnone : ∀ e ∈ w.entries, hasSupportedExt e.name = false) :
    runMain cfg w = .ok (⟨[]⟩, "Wrote OCR results to " ++ cfg.output) := by
  have hiter : iter_images w.entries = [] := by
    unfold iter_images
    have hf : (w.entries.map Entry.name).filter hasSupportedExt = [] := by
      rw [List.filter_eq_nil_iff]
      intro a ha
      obtain ⟨e, he, rfl⟩ := List.mem_map.mp ha
      rw [hnone e he]
      simp
    rw [hf]
    rfl
  unfold runMain
  rw [if_neg (by rw [heng]; simp : ¬w.engineOk = false),
    if_neg (by rw [hdir]; simp : ¬w.dirExists = false), hiter]
  rfl

/-- Witness for C10: an image directory holding only `notes.txt`. -/
theorem empty_dir_success_witness :
    runMain ⟨"img", "out.json"⟩
        ⟨true, true, [Entry.mk "notes.txt" false], fun _ => none, fun _ => none⟩ =
      .ok (⟨[]⟩, "Wrote OCR results to " ++ "out.json") :=
  empty_dir_success ⟨"img", "out.json"⟩
    ⟨true, true, [Entry.mk "notes.txt" false], fun _ => none, fun _ => none⟩
    rfl rfl (by decide)
